import Mathlib

/-!
Verification of the lakery tag-based validation library against its design
document.  Go strings are modeled as `List Char` (the grammar characters
`,`, `=`, `{`, `}` are all single-byte, so rune iteration with byte slicing
in the source coincides with character-list recursion).  Panics are modeled
by an explicit `panicked` outcome, Go `error` results by structured error
values, and the validator registry map by a lookup function.
-/

set_option autoImplicit false

namespace Lakery

/-- Convert a Lean string literal to the `List Char` representation used throughout. -/
def chars (s : String) : List Char := s.data

/-- Embedding of `unicode.IsSpace` restricted to the ASCII whitespace characters
(the only ones that occur around tag segments). -/
def isSpaceChar (c : Char) : Bool :=
  c = ' ' || c = '\t' || c = '\n' || c = '\x0b' || c = '\x0c' || c = '\r'

/-- Embedding of Go `strings.TrimSpace`. -/
def trimSpace (s : List Char) : List Char :=
  ((s.dropWhile isSpaceChar).reverse.dropWhile isSpaceChar).reverse

/-- Embedding of Go `strings.SplitN(s, "=", 2)`: the part before the first `=`
and, when an `=` occurs, the part after it. -/
def splitN2Eq : List Char → (List Char) × Option (List Char)
  | [] => ([], none)
  | c :: rest =>
    if c = '=' then ([], some rest)
    else
      let p := splitN2Eq rest
      (c :: p.1, p.2)

/-- Digit accumulator for `atoi`. -/
def digitsToNatAux : List Char → Nat → Option Nat
  | [], acc => some acc
  | c :: rest, acc =>
    if '0' ≤ c ∧ c ≤ '9' then digitsToNatAux rest (acc * 10 + (c.toNat - '0'.toNat))
    else none

/-- Embedding of Go `strconv.Atoi` (base 10, 64-bit range; `none` models a
non-nil error: empty input, stray characters, or overflow). -/
def atoi (s : List Char) : Option Int :=
  match s with
  | [] => none
  | '+' :: rest =>
    match rest, digitsToNatAux rest 0 with
    | _ :: _, some n => if n ≤ 2 ^ 63 - 1 then some (n : Int) else none
    | _, _ => none
  | '-' :: rest =>
    match rest, digitsToNatAux rest 0 with
    | _ :: _, some n => if n ≤ 2 ^ 63 then some (-(n : Int)) else none
    | _, _ => none
  | _ =>
    match digitsToNatAux s 0 with
    | some n => if n ≤ 2 ^ 63 - 1 then some (n : Int) else none
    | none => none

/-- The two brace failures of `splitTopLevelByComma`; each carries the raw
input string, as the Go errors do (`"unopened braces in %q"` / `"unclosed braces in %q"`). -/
inductive SplitErr where
  | unopenedBraces : List Char → SplitErr
  | unclosedBraces : List Char → SplitErr
deriving DecidableEq

/-- The scanning loop of the runtime engine's `splitTopLevelByComma`
(file `validator.go` of package lakery): walk the string tracking a brace
depth, emit a segment at each comma seen at depth 0, keep every other
character in the current segment.  Returns the segments together with the
final depth.  `cur` is the current segment in reverse. -/
def splitGo : List Char → Int → List Char → List (List Char) → (List (List Char)) × Int
  | [], depth, cur, acc => (acc ++ [cur.reverse], depth)
  | c :: rest, depth, cur, acc =>
    if c = '{' then splitGo rest (depth + 1) (c :: cur) acc
    else if c = '}' then splitGo rest (depth - 1) (c :: cur) acc
    else if c = ',' then
      if depth = 0 then splitGo rest depth [] (acc ++ [cur.reverse])
      else splitGo rest depth (c :: cur) acc
    else splitGo rest depth (c :: cur) acc

/-- The runtime engine's `splitTopLevelByComma`: split on top-level commas,
then report `unopened braces` when the final depth is negative and
`unclosed braces` when it is positive, in that order. -/
def splitTopLevelByComma (s : List Char) : Except SplitErr (List (List Char)) :=
  let r := splitGo s 0 [] []
  if r.2 < 0 then .error (.unopenedBraces s)
  else if r.2 > 0 then .error (.unclosedBraces s)
  else .ok r.1

end Lakery

namespace TagValidator

/-- The scanning loop of the static analyzer's `TagValidator.splitTopLevelByComma`
(the `main` package of the build-time tool), transcribed independently from its
own source text. -/
def splitLoop : List Char → Int → List Char → List (List Char) → (List (List Char)) × Int
  | [], depth, cur, acc => (acc ++ [cur.reverse], depth)
  | c :: rest, depth, cur, acc =>
    if c = '{' then splitLoop rest (depth + 1) (c :: cur) acc
    else if c = '}' then splitLoop rest (depth - 1) (c :: cur) acc
    else if c = ',' then
      if depth = 0 then splitLoop rest depth [] (acc ++ [cur.reverse])
      else splitLoop rest depth (c :: cur) acc
    else splitLoop rest depth (c :: cur) acc

/-- The static analyzer's `splitTopLevelByComma`. -/
def splitTopLevelByComma (s : List Char) : Except Lakery.SplitErr (List (List Char)) :=
  let r := splitLoop s 0 [] []
  if r.2 < 0 then .error (.unopenedBraces s)
  else if r.2 > 0 then .error (.unclosedBraces s)
  else .ok r.1

end TagValidator

namespace Lakery

/-- Shallow embedding of Go `reflect.Value` restricted to the kinds the library
handles.  A slice or map carries `none` when it is nil (length 0, zero value).
A struct value carries its fields as `(name, lakery tag, value)` triples. -/
inductive RValue where
  | str : List Char → RValue
  | slice : Option (List RValue) → RValue
  | arr : List RValue → RValue
  | mp : Option Nat → RValue
  | int : Int → RValue
  | uint : Nat → RValue
  | float : Rat → RValue
  | ptr : Option RValue → RValue
  | boolean : Bool → RValue
  | strct : List ((List Char) × (List Char) × RValue) → RValue

/-- One struct field as the engine sees it: declared name, raw `lakery` tag
(`[]` when the tag is absent, as `Tag.Get` returns `""`), current value. -/
abbrev Field := (List Char) × (List Char) × RValue

mutual

/-- Embedding of Go `reflect.Value.IsZero` on the modeled kinds. -/
def isZero : RValue → Bool
  | .str s => s.isEmpty
  | .slice o => o.isNone
  | .arr l => isZeroList l
  | .mp o => o.isNone
  | .int n => n == 0
  | .uint n => n == 0
  | .float q => q == 0
  | .ptr p => p.isNone
  | .boolean b => !b
  | .strct fs => isZeroFields fs

def isZeroList : List RValue → Bool
  | [] => true
  | x :: xs => isZero x && isZeroList xs

def isZeroFields : List ((List Char) × (List Char) × RValue) → Bool
  | [] => true
  | f :: fs => isZero f.2.2 && isZeroFields fs

end

/-- Embedding of the lakery `Value` passed to validator callbacks
(`value.go`, the version with `val`, `name` and a string `param`). -/
structure Value where
  val : RValue
  name : List Char
  param : List Char

/-- `Value.Param`: returns the stored parameter string, and panics (modeled as
`none`) when it is empty — which is the state both for an absent parameter and
for one supplied as the empty string. -/
def Value.Param (v : Value) : Option (List Char) :=
  if v.param ≠ [] then some v.param else none

/-- Structured counterparts of the error values the library builds with
`fmt.Errorf` / `errors.New`. -/
inductive VErr where
  | lenAtLeast : Int → VErr
  | lenAtMost : Int → VErr
  | geq : Int → VErr
  | leq : Int → VErr
  | minBadParam : VErr
  | maxBadParam : VErr
  | minNotApplicable : VErr
  | maxNotApplicable : VErr
  | isRequired : VErr
  | eachNonSlice : VErr
  | canOnlyValidateStructs : VErr
  | splitErr : SplitErr → VErr
  | formatted : List Char → RValue → VErr → VErr

/-- Outcome of a Go call that can panic: either a returned `error` value
(`res none` = nil error) or a panic. -/
inductive PResult where
  | res : Option VErr → PResult
  | panicked : PResult

/-- The tag-name constants of `builtin.go`. -/
def minTag : List Char := chars "min"

def maxTag : List Char := chars "max"

def eachTag : List Char := chars "each"

def diveTag : List Char := chars "dive"

def requiredTag : List Char := chars "required"

/-- The `switch k` body of `builtinMin`, applied after pointer handling.
`uint64(min)` in the source is the two's-complement reinterpretation of the
(64-bit) parameter, i.e. `min mod 2^64`; `float64(min)` is modeled exactly. -/
def builtinMinKind (min : Int) (rv : RValue) : PResult :=
  match rv with
  | .str s => if (s.length : Int) < min then .res (some (.lenAtLeast min)) else .res none
  | .arr l => if (l.length : Int) < min then .res (some (.lenAtLeast min)) else .res none
  | .slice o => if (((o.getD []).length : Int)) < min then .res (some (.lenAtLeast min)) else .res none
  | .mp o => if ((o.getD 0 : Int)) < min then .res (some (.lenAtLeast min)) else .res none
  | .int n => if n < min then .res (some (.geq min)) else .res none
  | .uint n => if n < (min.emod (2 ^ 64)).toNat then .res (some (.geq min)) else .res none
  | .float q => if q < (min : Rat) then .res (some (.geq min)) else .res none
  | _ => .res (some .minNotApplicable)

/-- Embedding of `builtinMin` (`builtin.go`): parse the parameter, treat a nil
pointer as length 0 (fails when `min > 0`), dereference one pointer level,
then dispatch on the kind. -/
def builtinMin (val : Value) : PResult :=
  match val.Param with
  | none => .panicked
  | some minStr =>
    match atoi minStr with
    | none => .res (some .minBadParam)
    | some min =>
      match val.val with
      | .ptr none => if min > 0 then .res (some (.lenAtLeast min)) else .res none
      | .ptr (some inner) => builtinMinKind min inner
      | rv => builtinMinKind min rv

/-- The `switch k` body of `builtinMax`, applied after pointer handling. -/
def builtinMaxKind (max : Int) (rv : RValue) : PResult :=
  match rv with
  | .str s => if (s.length : Int) > max then .res (some (.lenAtMost max)) else .res none
  | .arr l => if (l.length : Int) > max then .res (some (.lenAtMost max)) else .res none
  | .slice o => if (((o.getD []).length : Int)) > max then .res (some (.lenAtMost max)) else .res none
  | .mp o => if ((o.getD 0 : Int)) > max then .res (some (.lenAtMost max)) else .res none
  | .int n => if n > max then .res (some (.leq max)) else .res none
  | .uint n => if n > (max.emod (2 ^ 64)).toNat then .res (some (.leq max)) else .res none
  | .float q => if q > (max : Rat) then .res (some (.leq max)) else .res none
  | _ => .res (some .maxNotApplicable)

/-- Embedding of `builtinMax` (`builtin.go`): parse the parameter; on a nil
pointer the source returns nil unconditionally (its comment announces
"only passes if max >= 0", but no check is performed); otherwise dereference
one pointer level and dispatch on the kind. -/
def builtinMax (val : Value) : PResult :=
  match val.Param with
  | none => .panicked
  | some maxStr =>
    match atoi maxStr with
    | none => .res (some .maxBadParam)
    | some max =>
      match val.val with
      | .ptr none => .res none
      | .ptr (some inner) => builtinMaxKind max inner
      | rv => builtinMaxKind max rv

/-- Embedding of `builtinRequired` (`builtin.go`): a nil pointer fails
immediately; otherwise one dereference and an `IsZero` check. -/
def builtinRequired (val : Value) : PResult :=
  match val.val with
  | .ptr none => .res (some .isRequired)
  | .ptr (some inner) => if isZero inner then .res (some .isRequired) else .res none
  | rv => if isZero rv then .res (some .isRequired) else .res none

/-- The validator registry: Go's `map[string]TagValidationFunc` modeled as a
lookup function. -/
structure Validator where
  validators : List Char → Option (Value → PResult)

/-- `Validator.RegisterTag`: overwrite silently. -/
def Validator.RegisterTag (v : Validator) (tag : List Char) (fn : Value → PResult) : Validator :=
  ⟨fun k => if k = tag then some fn else v.validators k⟩

/-- `registerBuiltins` (`builtin.go`): register `min`, `max` and `required`. -/
def Validator.registerBuiltins (v : Validator) : Validator :=
  ((v.RegisterTag minTag builtinMin).RegisterTag maxTag builtinMax).RegisterTag
    requiredTag builtinRequired

/-- `NewValidator`: an empty registry with the builtins registered. -/
def NewValidator : Validator :=
  Validator.registerBuiltins ⟨fun _ => none⟩

/-- The sequence kinds accepted by the `each` clause: slices (a nil slice has
no elements) and arrays.  `none` for every other kind. -/
def seqElems? : RValue → Option (List RValue)
  | .slice none => some []
  | .slice (some l) => some l
  | .arr l => some l
  | _ => none

/-- One iteration of the inner loop of the `each` branch of `proceedTags`:
trim the inner tag, skip it when blank, split off the parameter, look the
name up and run the callback on the element, wrapping a failure with the
element value through the (default) error formatter. -/
def checkInner (v : Validator) (fname : List Char) (elem : RValue) (it0 : List Char) : PResult :=
  let it := trimSpace it0
  if it = [] then .res none
  else
    let kv := splitN2Eq it
    let innerKey := trimSpace kv.1
    let eVal : Value := ⟨elem, fname, match kv.2 with | some p => trimSpace p | none => []⟩
    match v.validators innerKey with
    | some fn =>
      match fn eVal with
      | .res (some e) => .res (some (.formatted fname elem e))
      | r => r
    | none => .res none

/-- The inner-tag loop of the `each` branch, for one element: first failure
(or panic) returns. -/
def eachInnerLoop (v : Validator) (fname : List Char) (elem : RValue) : List (List Char) → PResult
  | [] => .res none
  | it :: rest =>
    match checkInner v fname elem it with
    | .res none => eachInnerLoop v fname elem rest
    | r => r

/-- The element loop of the `each` branch: elements in index order, first
failure returns. -/
def eachElemsLoop (v : Validator) (fname : List Char) (innerTags : List (List Char)) : List RValue → PResult
  | [] => .res none
  | e :: es =>
    match eachInnerLoop v fname e innerTags with
    | .res none => eachElemsLoop v fname innerTags es
    | r => r

/-- Processing of one top-level tag segment by `proceedTags`: trim, skip when
blank, split name and parameter; the `each` branch checks the field kind,
reads the parameter through `Value.Param` (panics when unset), strips one
optional outer brace pair, re-splits and runs the element loop; any other name
is looked up in the registry and silently skipped when unregistered.  Errors
are wrapped through the default `CurrentErrorFormatFunc`. -/
def processTag (v : Validator) (fname : List Char) (fval : RValue) (tag0 : List Char) : PResult :=
  let tag := trimSpace tag0
  if tag = [] then .res none
  else
    let splitted := splitN2Eq tag
    let tagKey := trimSpace splitted.1
    let param := match splitted.2 with
      | some p => trimSpace p
      | none => []
    let val : Value := ⟨fval, fname, param⟩
    if tagKey = eachTag then
      match seqElems? fval with
      | none => .res (some (.formatted fname fval .eachNonSlice))
      | some elems =>
        match val.Param with
        | none => .panicked
        | some inner0 =>
          let inner1 := trimSpace inner0
          let inner2 :=
            if inner1.head? = some '{' ∧ inner1.getLast? = some '}' then
              trimSpace ((inner1.drop 1).dropLast)
            else inner1
          match splitTopLevelByComma inner2 with
          | .error e => .res (some (.formatted fname fval (.splitErr e)))
          | .ok innerTags => eachElemsLoop v fname innerTags elems
    else
      match v.validators tagKey with
      | some fn =>
        match fn val with
        | .res (some e) => .res (some (.formatted fname fval e))
        | r => r
      | none => .res none

/-- The top-level tag loop of `proceedTags`: segments left to right, first
failure (or panic) returns. -/
def tagsLoop (v : Validator) (fname : List Char) (fval : RValue) : List (List Char) → PResult
  | [] => .res none
  | t :: ts =>
    match processTag v fname fval t with
    | .res none => tagsLoop v fname fval ts
    | r => r

/-- `Validator.proceedTags` for one field: no tag means success; a splitter
failure is wrapped through the formatter; otherwise run the tag loop. -/
def proceedTags (v : Validator) (f : Field) : PResult :=
  if f.2.1 = [] then .res none
  else
    match splitTopLevelByComma f.2.1 with
    | .error e => .res (some (.formatted f.1 f.2.2 (.splitErr e)))
    | .ok tags => tagsLoop v f.1 f.2.2 tags

/-- `Validator.validateStruct`: fields in declaration order, first failure
(or panic) aborts. -/
def validateStruct (v : Validator) : List Field → PResult
  | [] => .res none
  | f :: fs =>
    match proceedTags v f with
    | .res none => validateStruct v fs
    | r => r

/-- `Validator.Validate`: dereference one pointer level, reject anything that
is not a struct, then validate the fields.  (The receiver nil-check of the
source has no counterpart for a structure value.) -/
def Validate (v : Validator) (s : RValue) : PResult :=
  match s with
  | .ptr none => .res (some .canOnlyValidateStructs)
  | .ptr (some inner) =>
    match inner with
    | .strct fields => validateStruct v fields
    | _ => .res (some .canOnlyValidateStructs)
  | .strct fields => validateStruct v fields
  | _ => .res (some .canOnlyValidateStructs)

end Lakery

namespace Lakery

/-- Concatenation of segments with the `,` separator (the round-trip of the
splitter). -/
def joinSep : List (List Char) → List Char
  | [] => []
  | [x] => x
  | x :: y :: xs => x ++ ',' :: joinSep (y :: xs)

/-- Net brace count of a string: occurrences of `{` minus occurrences of `}`.
This is the depth at the end of the splitter's scan. -/
def braceDelta (s : List Char) : Int :=
  (s.count '{' : Int) - (s.count '}' : Int)

/-- First non-nil result in a list of per-check outcomes (a panic also stops
the scan); the specification-level reading of the engine's loops. -/
def firstResult : List PResult → PResult
  | [] => .res none
  | r :: rs =>
    match r with
    | .res none => firstResult rs
    | _ => r

theorem splitGo_braceOpen (rest : List Char) (d : Int) (cur : List Char)
    (acc : List (List Char)) :
    splitGo ('{' :: rest) d cur acc = splitGo rest (d + 1) ('{' :: cur) acc := rfl

theorem splitGo_braceClose (rest : List Char) (d : Int) (cur : List Char)
    (acc : List (List Char)) :
    splitGo ('}' :: rest) d cur acc = splitGo rest (d - 1) ('}' :: cur) acc := rfl

theorem splitGo_comma (rest : List Char) (d : Int) (cur : List Char)
    (acc : List (List Char)) :
    splitGo (',' :: rest) d cur acc =
      if d = 0 then splitGo rest d [] (acc ++ [cur.reverse])
      else splitGo rest d (',' :: cur) acc := rfl

theorem splitGo_other {c : Char} (h1 : ¬c = '{') (h2 : ¬c = '}') (h3 : ¬c = ',')
    (rest : List Char) (d : Int) (cur : List Char) (acc : List (List Char)) :
    splitGo (c :: rest) d cur acc = splitGo rest d (c :: cur) acc := by
  simp [splitGo, h1, h2, h3]

theorem joinSep_cons (a : List Char) (L : List (List Char)) (h : L ≠ []) :
    joinSep (a :: L) = a ++ ',' :: joinSep L := by
  cases L with
  | nil => exact absurd rfl h
  | cons b bs => rfl

theorem joinSep_append_two (acc : List (List Char)) (x y : List Char) :
    joinSep (acc ++ [x] ++ [y]) = joinSep (acc ++ [x ++ ',' :: y]) := by
  induction acc with
  | nil => rfl
  | cons a as ih =>
    have h1 : (as ++ [x] ++ [y]) ≠ [] := by simp
    have h2 : (as ++ [x ++ ',' :: y]) ≠ [] := by simp
    simp only [List.cons_append, joinSep_cons _ _ h1, joinSep_cons _ _ h2, ih]

theorem splitGo_join (s : List Char) : ∀ (d : Int) (cur : List Char) (acc : List (List Char)),
    joinSep ((splitGo s d cur acc).1) = joinSep (acc ++ [cur.reverse ++ s]) := by
  induction s with
  | nil => intro d cur acc; simp [splitGo]
  | cons c rest ih =>
    intro d cur acc
    by_cases hb : c = '{'
    · subst hb
      rw [splitGo_braceOpen, ih]
      simp
    · by_cases hc : c = '}'
      · subst hc
        rw [splitGo_braceClose, ih]
        simp
      · by_cases hd : c = ','
        · subst hd
          rw [splitGo_comma]
          by_cases hz : d = 0
          · rw [if_pos hz, ih]
            have := joinSep_append_two acc cur.reverse rest
            simpa using this
          · rw [if_neg hz, ih]
            simp
        · rw [splitGo_other hb hc hd, ih]
          simp

/-- Round-trip of the splitter: on success, joining the segments with `,`
gives back exactly the input. -/
theorem splitTopLevelByComma_join {s : List Char} {parts : List (List Char)}
    (h : splitTopLevelByComma s = .ok parts) : joinSep parts = s := by
  unfold splitTopLevelByComma at h
  simp only at h
  split at h
  · exact absurd h (by simp)
  · split at h
    · exact absurd h (by simp)
    · have hp : parts = (splitGo s 0 [] []).1 := by
        have h' := h
        simp only [Except.ok.injEq] at h'
        exact h'.symm
      subst hp
      simpa using splitGo_join s 0 [] []

theorem length_le_joinSep {p : List Char} {parts : List (List Char)}
    (h : p ∈ parts) : p.length ≤ (joinSep parts).length := by
  induction parts with
  | nil => simp at h
  | cons x xs ih =>
    cases xs with
    | nil =>
      simp only [List.mem_singleton] at h
      subst h; exact le_refl _
    | cons y ys =>
      rw [joinSep_cons x (y :: ys) (by simp)]
      simp only [List.mem_cons] at h
      rcases h with h | h
      · subst h; simp
      · have := ih (by simpa using h)
        simp only [List.length_append, List.length_cons]
        omega

/-- Every segment returned by the splitter is at most as long as the input. -/
theorem splitPart_length_le {s : List Char} {parts : List (List Char)} {p : List Char}
    (h : splitTopLevelByComma s = .ok parts) (hp : p ∈ parts) : p.length ≤ s.length := by
  have := length_le_joinSep hp
  rwa [splitTopLevelByComma_join h] at this

theorem braceDelta_open (rest : List Char) : braceDelta ('{' :: rest) = braceDelta rest + 1 := by
  simp [braceDelta, List.count_cons]
  ring

theorem braceDelta_close (rest : List Char) : braceDelta ('}' :: rest) = braceDelta rest - 1 := by
  simp [braceDelta, List.count_cons]
  ring

theorem braceDelta_other {c : Char} (h1 : ¬c = '{') (h2 : ¬c = '}') (rest : List Char) :
    braceDelta (c :: rest) = braceDelta rest := by
  have e1 : ('{' == c) = false := by
    simp [BEq.beq]
    exact fun h => h1 h.symm
  have e2 : ('}' == c) = false := by
    simp [BEq.beq]
    exact fun h => h2 h.symm
  simp [braceDelta, List.count_cons, e1, e2, h1, h2]

theorem splitGo_depth (s : List Char) : ∀ (d : Int) (cur : List Char) (acc : List (List Char)),
    (splitGo s d cur acc).2 = d + braceDelta s := by
  induction s with
  | nil => intro d cur acc; simp [splitGo, braceDelta]
  | cons c rest ih =>
    intro d cur acc
    by_cases hb : c = '{'
    · subst hb
      rw [splitGo_braceOpen, ih, braceDelta_open]
      ring
    · by_cases hc : c = '}'
      · subst hc
        rw [splitGo_braceClose, ih, braceDelta_close]
        ring
      · by_cases hd : c = ','
        · subst hd
          rw [splitGo_comma]
          by_cases hz : d = 0
          · rw [if_pos hz, ih, braceDelta_other hb hc]
          · rw [if_neg hz, ih, braceDelta_other hb hc]
        · rw [splitGo_other hb hc hd, ih, braceDelta_other hb hc]

theorem trimSpace_length_le (s : List Char) : (trimSpace s).length ≤ s.length := by
  unfold trimSpace
  have h1 := (List.dropWhile_sublist (l := s) (p := isSpaceChar)).length_le
  have h2 := (List.dropWhile_sublist (l := (s.dropWhile isSpaceChar).reverse)
    (p := isSpaceChar)).length_le
  simp only [List.length_reverse] at *
  omega

theorem splitN2Eq_snd_length {s b : List Char} (h : (splitN2Eq s).2 = some b) :
    b.length < s.length := by
  induction s with
  | nil => simp [splitN2Eq] at h
  | cons c rest ih =>
    by_cases hc : c = '='
    · subst hc
      simp only [splitN2Eq, if_pos rfl] at h
      cases h
      simp
    · simp only [splitN2Eq, if_neg hc] at h
      have := ih h
      simp only [List.length_cons]
      omega

/-- The static analyzer's splitter and the runtime engine's splitter agree
everywhere (their loops are the same algorithm). -/
theorem splitTopLevel_eq (s : List Char) :
    TagValidator.splitTopLevelByComma s = splitTopLevelByComma s := by
  have hloop : ∀ (t : List Char) (d : Int) (cur : List Char) (acc : List (List Char)),
      TagValidator.splitLoop t d cur acc = splitGo t d cur acc := by
    intro t
    induction t with
    | nil => intro d cur acc; rfl
    | cons c rest ih =>
      intro d cur acc
      simp only [TagValidator.splitLoop, splitGo, ih]
  simp only [TagValidator.splitTopLevelByComma, splitTopLevelByComma, hloop]

end Lakery
namespace TagValidator

/-- The analyzer's diagnostics, one constructor per `addError` message shape. -/
inductive Diag where
  | emptyValidatorName : Diag
  | colonTypo : List Char → Diag
  | unknownValidator : List Char → Diag
  | expectsIntParam : List Char → List Char → Diag
  | requiredNoParams : Diag
  | invalidSyntaxInEachTag : Lakery.SplitErr → Diag
  | braceSyntax : Lakery.SplitErr → Diag
deriving DecidableEq

/-- The analyzer's `builtinValidators` map: tags that are always available,
including the special tags `each` and `dive`. -/
def builtinValidators (n : List Char) : Bool :=
  n = Lakery.chars "min" || n = Lakery.chars "max" || n = Lakery.chars "required" ||
    n = Lakery.chars "each" || n = Lakery.chars "dive"

/-- `validateValidatorParam`: `min`/`max` need an integer parameter, `required`
accepts none, everything else is unchecked. -/
def validateValidatorParam (validator : List Char) (param : List Char) : List Diag :=
  if validator = Lakery.chars "min" ∨ validator = Lakery.chars "max" then
    match Lakery.atoi param with
    | none => [.expectsIntParam validator param]
    | some _ => []
  else if validator = Lakery.chars "required" then
    if param ≠ [] then [.requiredNoParams] else []
  else []

/-- The value scrutinized by `validateEachTag`: the (already trimmed) `each`
parameter with one optional outer brace pair stripped and re-trimmed. -/
def eachValue (v0 : List Char) : List Char :=
  let value0 := Lakery.trimSpace v0
  if value0.head? = some '{' ∧ value0.getLast? = some '}' then
    Lakery.trimSpace ((value0.drop 1).dropLast)
  else value0

theorem eachValue_length_le (v0 : List Char) : (eachValue v0).length ≤ v0.length := by
  unfold eachValue
  have l3 : (Lakery.trimSpace v0).length ≤ v0.length := Lakery.trimSpace_length_le v0
  by_cases hb : (Lakery.trimSpace v0).head? = some '{' ∧ (Lakery.trimSpace v0).getLast? = some '}'
  · simp only [if_pos hb]
    have := Lakery.trimSpace_length_le (((Lakery.trimSpace v0).drop 1).dropLast)
    have hd : ((((Lakery.trimSpace v0).drop 1)).dropLast).length ≤ (Lakery.trimSpace v0).length := by
      rw [List.length_dropLast, List.length_drop]
      omega
    omega
  · simp only [if_neg hb]
    exact l3

/-- `validateTagPart` with `validateEachTag` inlined at its only call site:
split off the parameter, reject an empty name, recurse into the brace-stripped
body of an `each` parameter, flag unknown validators (with the targeted
`each:` typo hint), and check parameter shapes of known ones. -/
def validateTagPart (custom : List Char → Bool) (part : List Char) : List Diag :=
  let key := Lakery.trimSpace (Lakery.splitN2Eq part).1
  if key = [] then [.emptyValidatorName]
  else if key = Lakery.chars "each" then
    match h : (Lakery.splitN2Eq part).2 with
    | none => []
    | some v0 =>
      if eachValue v0 = [] then []
      else
        match hsp : splitTopLevelByComma (eachValue v0) with
        | .error e => [.invalidSyntaxInEachTag e]
        | .ok innerParts =>
          innerParts.attach.flatMap fun ip =>
            if Lakery.trimSpace ip.1 = [] then []
            else validateTagPart custom (Lakery.trimSpace ip.1)
  else if !(builtinValidators key || custom key) then
    if (Lakery.chars "each:").isPrefixOf key then [.colonTypo key]
    else [.unknownValidator key]
  else
    match (Lakery.splitN2Eq part).2 with
    | none => []
    | some p => validateValidatorParam key (Lakery.trimSpace p)
termination_by part.length
decreasing_by
  have hsl : Lakery.splitTopLevelByComma (eachValue v0) = .ok innerParts := by
    rw [← Lakery.splitTopLevel_eq]
    exact hsp
  have l1 : ip.1.length ≤ (eachValue v0).length := Lakery.splitPart_length_le hsl ip.2
  have l2 : (eachValue v0).length ≤ v0.length := eachValue_length_le v0
  have l4 : v0.length < part.length := Lakery.splitN2Eq_snd_length h
  have l5 : (Lakery.trimSpace ip.1).length ≤ ip.1.length := Lakery.trimSpace_length_le ip.1
  omega

/-- `validateLakeryTag`: surface a brace failure of the splitter verbatim,
otherwise check each trimmed non-blank top-level segment. -/
def validateLakeryTag (custom : List Char → Bool) (tag : List Char) : List Diag :=
  match splitTopLevelByComma tag with
  | .error e => [.braceSyntax e]
  | .ok parts =>
    parts.flatMap fun part0 =>
      if Lakery.trimSpace part0 = [] then []
      else validateTagPart custom (Lakery.trimSpace part0)

end TagValidator

namespace Lakery

theorem firstResult_append (l1 l2 : List PResult) :
    firstResult (l1 ++ l2) =
      match firstResult l1 with
      | .res none => firstResult l2
      | r => r := by
  induction l1 with
  | nil => rfl
  | cons r rs ih =>
    cases r with
    | res o =>
      cases o with
      | none => simpa [firstResult] using ih
      | some e => rfl
    | panicked => rfl

theorem tagsLoop_eq_firstResult (v : Validator) (fname : List Char) (fval : RValue)
    (tags : List (List Char)) :
    tagsLoop v fname fval tags = firstResult (tags.map (processTag v fname fval)) := by
  induction tags with
  | nil => rfl
  | cons t ts ih =>
    simp only [tagsLoop, List.map_cons, firstResult, ih]
    cases hp : processTag v fname fval t with
    | res o =>
      cases o with
      | none => rfl
      | some e => rfl
    | panicked => rfl

theorem eachInnerLoop_eq_firstResult (v : Validator) (fname : List Char) (elem : RValue)
    (tags : List (List Char)) :
    eachInnerLoop v fname elem tags = firstResult (tags.map (checkInner v fname elem)) := by
  induction tags with
  | nil => rfl
  | cons t ts ih =>
    simp only [eachInnerLoop, List.map_cons, firstResult, ih]
    cases hp : checkInner v fname elem t with
    | res o =>
      cases o with
      | none => rfl
      | some e => rfl
    | panicked => rfl

theorem eachElemsLoop_eq_firstResult (v : Validator) (fname : List Char)
    (innerTags : List (List Char)) (elems : List RValue) :
    eachElemsLoop v fname innerTags elems =
      firstResult (elems.flatMap fun e => innerTags.map (checkInner v fname e)) := by
  induction elems with
  | nil => rfl
  | cons e es ih =>
    simp only [eachElemsLoop, List.flatMap_cons, firstResult_append,
      eachInnerLoop_eq_firstResult, ih]

theorem validateStruct_eq_firstResult (v : Validator) (fields : List Field) :
    validateStruct v fields = firstResult (fields.map (proceedTags v)) := by
  induction fields with
  | nil => rfl
  | cons f fs ih =>
    simp only [validateStruct, List.map_cons, firstResult, ih]
    cases hp : proceedTags v f with
    | res o =>
      cases o with
      | none => rfl
      | some e => rfl
    | panicked => rfl

end Lakery

namespace Lakery

theorem splitTopLevelByComma_cases (s : List Char) :
    splitTopLevelByComma s =
      if braceDelta s < 0 then .error (.unopenedBraces s)
      else if braceDelta s > 0 then .error (.unclosedBraces s)
      else .ok (splitGo s 0 [] []).1 := by
  have hd : (splitGo s 0 [] []).2 = braceDelta s := by
    simpa using splitGo_depth s 0 [] []
  show (if (splitGo s 0 [] []).2 < 0 then (.error (.unopenedBraces s) : Except SplitErr (List (List Char)))
      else if (splitGo s 0 [] []).2 > 0 then .error (.unclosedBraces s)
      else .ok (splitGo s 0 [] []).1) = _
  rw [hd]

end Lakery

/-- Claim C1: the runtime engine's `splitTopLevelByComma` and the static
analyzer's `TagValidator.splitTopLevelByComma` compute the same function —
the same ordered segment list on success and the same brace condition
(unopened/unclosed, carrying the same raw string) on failure. -/
theorem C1_split_equivalence :
    ∀ s : List Char, TagValidator.splitTopLevelByComma s = Lakery.splitTopLevelByComma s :=
  Lakery.splitTopLevel_eq

/-- Claim C2, counterexample: the claim says a string whose brace depth dips
negative but ends at 0, such as `"}{"`, fails with an unopened-braces
condition; the code's parser accepts it (only the final depth is tested). -/
theorem C2_counterexample :
    Lakery.splitTopLevelByComma ['}', '{'] = .ok [['}', '{']] := rfl

/-- Claim C2 (amended): the parser fails with unopened-braces exactly when the
final brace depth (count of `{` minus count of `}`) is negative, with
unclosed-braces exactly when it is positive, and succeeds exactly when it is
zero — a mid-scan negative dip that returns to a non-negative final depth is
not detected. -/
theorem C2_amended_final_depth (s : List Char) :
    (Lakery.splitTopLevelByComma s = .error (.unopenedBraces s) ↔ Lakery.braceDelta s < 0) ∧
    (Lakery.splitTopLevelByComma s = .error (.unclosedBraces s) ↔ 0 < Lakery.braceDelta s) ∧
    ((∃ parts, Lakery.splitTopLevelByComma s = .ok parts) ↔ Lakery.braceDelta s = 0) := by
  rw [Lakery.splitTopLevelByComma_cases]
  by_cases h1 : Lakery.braceDelta s < 0
  · simp [h1]
    omega
  · by_cases h2 : Lakery.braceDelta s > 0
    · simp [h1, h2]
      omega
    · simp [h1, h2]
      omega

/-- Claim C3, counterexample: a fresh `NewValidator` has no entry under
`"minimum"` or `"maximum"` — those lookups fail, contrary to the claim. -/
theorem C3_counterexample :
    Lakery.NewValidator.validators (Lakery.chars "minimum") = none ∧
    Lakery.NewValidator.validators (Lakery.chars "maximum") = none := ⟨rfl, rfl⟩

/-- Claim C3 (amended): immediately after `NewValidator`, the registry has the
built-ins registered under the short names `"min"`, `"max"` and `"required"`
(lookups of those succeed), while `"minimum"`/`"maximum"` are not registered. -/
theorem C3_amended_builtin_names :
    Lakery.NewValidator.validators Lakery.minTag = some Lakery.builtinMin ∧
    Lakery.NewValidator.validators Lakery.maxTag = some Lakery.builtinMax ∧
    Lakery.NewValidator.validators Lakery.requiredTag = some Lakery.builtinRequired ∧
    Lakery.NewValidator.validators (Lakery.chars "minimum") = none ∧
    Lakery.NewValidator.validators (Lakery.chars "maximum") = none :=
  ⟨rfl, rfl, rfl, rfl, rfl⟩

/-- Claim C4: evaluation of `builtinMax` at the failing inputs — a nil pointer
field passes `max=-1` and `max=-5` even though the claim (and the code's own
comment, "only passes if max >= 0") requires a failure for negative N. -/
theorem C4_code_eval :
    Lakery.builtinMax ⟨.ptr none, Lakery.chars "F", Lakery.chars "-1"⟩ = .res none ∧
    Lakery.builtinMax ⟨.ptr none, Lakery.chars "F", Lakery.chars "-5"⟩ = .res none := ⟨rfl, rfl⟩

/-- Claim C5, counterexample: on the tag `"min="` the parameter is supplied as
the empty string, yet `Value.Param` still fails (the call panics), contrary to
the claim that the failure occurs only when the parameter is absent. -/
theorem C5_counterexample :
    Lakery.proceedTags Lakery.NewValidator
      (Lakery.chars "F", Lakery.chars "min=", .str (Lakery.chars "ab")) = .panicked := rfl

/-- Claim C5 (amended): `Value` stores only the parameter string, so absence
and present-but-empty collapse into the same state (`param = ""`);
`Value.Param` fails (panics) exactly when the stored string is empty — both
for the absent tag `"min"` and for the empty-supplied tag `"min="`. -/
theorem C5_amended_param_empty :
    (∀ v : Lakery.Value,
        (Lakery.Value.Param v = none ↔ v.param = []) ∧
        (Lakery.Value.Param v = some v.param ↔ v.param ≠ [])) ∧
    Lakery.proceedTags Lakery.NewValidator
      (Lakery.chars "F", Lakery.chars "min", .str (Lakery.chars "ab")) = .panicked ∧
    Lakery.proceedTags Lakery.NewValidator
      (Lakery.chars "F", Lakery.chars "min=", .str (Lakery.chars "ab")) = .panicked := by
  refine ⟨fun v => ?_, rfl, rfl⟩
  unfold Lakery.Value.Param
  by_cases h : v.param = []
  · simp [h]
  · simp [h]

namespace Lakery

theorem processTag_each_noparam (v : Validator) (fname : List Char) (sval : RValue)
    (elems : List RValue) (hseq : seqElems? sval = some elems) :
    processTag v fname sval (chars "each") = .panicked := by
  have h2 : processTag v fname sval (chars "each") =
      (match seqElems? sval with
        | none => .res (some (.formatted fname sval .eachNonSlice))
        | some _ => .panicked) := rfl
  rw [h2, hseq]

theorem proceedTags_each_noparam (v : Validator) (fname : List Char) (sval : RValue)
    (elems : List RValue) (hseq : seqElems? sval = some elems) :
    proceedTags v (fname, chars "each", sval) = .panicked := by
  have h1 : proceedTags v (fname, chars "each", sval) =
      tagsLoop v fname sval [chars "each"] := rfl
  have h3 : tagsLoop v fname sval [chars "each"] =
      (match processTag v fname sval (chars "each") with
        | .res none => tagsLoop v fname sval []
        | r => r) := rfl
  rw [h1, h3, processTag_each_noparam v fname sval elems hseq]

end Lakery

/-- Claim C6: validation is deterministic and first-failure-wins — fields in
declaration order, top-level invocations left to right, each-clause elements
in index order (each loop equals the first non-nil outcome of the ordered
check list); in particular on a slice `["", "bb"]` under `each={min=1}` the
returned error is attributed to the element at index 0 (the error wraps the
index-0 value `""`), never index 1. -/
theorem C6_first_failure_order :
    (∀ (v : Lakery.Validator) (fields : List Lakery.Field),
        Lakery.validateStruct v fields =
          Lakery.firstResult (fields.map (Lakery.proceedTags v))) ∧
    (∀ (v : Lakery.Validator) (fname : List Char) (fval : Lakery.RValue)
        (tags : List (List Char)),
        Lakery.tagsLoop v fname fval tags =
          Lakery.firstResult (tags.map (Lakery.processTag v fname fval))) ∧
    (∀ (v : Lakery.Validator) (fname : List Char) (innerTags : List (List Char))
        (elems : List Lakery.RValue),
        Lakery.eachElemsLoop v fname innerTags elems =
          Lakery.firstResult (elems.flatMap fun e => innerTags.map (Lakery.checkInner v fname e))) ∧
    Lakery.Validate Lakery.NewValidator
      (.strct [(Lakery.chars "Creds", Lakery.chars "each=" ++ '{' :: Lakery.chars "min=1" ++ ['}'],
        .slice (some [.str [], .str (Lakery.chars "bb")]))]) =
      .res (some (.formatted (Lakery.chars "Creds") (.str []) (.lenAtLeast 1))) :=
  ⟨Lakery.validateStruct_eq_firstResult, Lakery.tagsLoop_eq_firstResult,
   Lakery.eachElemsLoop_eq_firstResult, rfl⟩

/-- Claim C7: for every annotation string the grammar parser accepts,
concatenating the returned top-level segments with `,` reproduces the input
(exactly, hence in particular up to whitespace). -/
theorem C7_roundtrip (s : List Char) (parts : List (List Char))
    (h : Lakery.splitTopLevelByComma s = .ok parts) :
    Lakery.joinSep parts = s :=
  Lakery.splitTopLevelByComma_join h

theorem C7_roundtrip_witness :
    Lakery.splitTopLevelByComma (Lakery.chars "a,b") = .ok [Lakery.chars "a", Lakery.chars "b"] ∧
    Lakery.joinSep [Lakery.chars "a", Lakery.chars "b"] = Lakery.chars "a,b" :=
  ⟨rfl, C7_roundtrip (Lakery.chars "a,b") [Lakery.chars "a", Lakery.chars "b"] rfl⟩

/-- Claim C8: evaluation of `builtinMin`/`builtinMax` at the failing inputs —
for a uint field of value 5, `min=0` passes but `min=-1` fails (dropping the
parameter turned a pass into a fail), and `max=-1` passes but `max=0` fails
(raising the parameter turned a pass into a fail): the negative parameter is
converted with two's-complement wraparound to a huge uint64, violating the
claimed monotonicity and the code's own documented `value >= min` / `<= max`
comparison. -/
theorem C8_code_eval :
    Lakery.builtinMin ⟨.uint 5, Lakery.chars "F", Lakery.chars "0"⟩ = .res none ∧
    Lakery.builtinMin ⟨.uint 5, Lakery.chars "F", Lakery.chars "-1"⟩ = .res (some (.geq (-1))) ∧
    Lakery.builtinMax ⟨.uint 5, Lakery.chars "F", Lakery.chars "-1"⟩ = .res none ∧
    Lakery.builtinMax ⟨.uint 5, Lakery.chars "F", Lakery.chars "0"⟩ = .res (some (.leq 0)) :=
  ⟨rfl, rfl, rfl, rfl⟩

/-- Claim C9, counterexample: the static analyzer emits no diagnostic at all
for the reserved token `dive` (it sits in the analyzer's builtin set), contrary
to the claimed "unknown validator" report. -/
theorem C9_counterexample :
    TagValidator.validateTagPart (fun _ => false) (Lakery.chars "dive") = [] := by
  rw [TagValidator.validateTagPart.eq_def]
  rfl

/-- Claim C9 (amended): an annotation invocation `dive` is a no-op at runtime
(no callback is dispatched and no error is returned for it, for every field
value), and the static analyzer also accepts it silently — `dive` is in the
analyzer's builtin set, so no "unknown validator" diagnostic is produced. -/
theorem C9_amended_dive :
    (∀ (value : Lakery.RValue) (fname : List Char),
        Lakery.proceedTags Lakery.NewValidator (fname, Lakery.diveTag, value) = .res none) ∧
    TagValidator.validateTagPart (fun _ => false) (Lakery.chars "dive") = [] ∧
    TagValidator.builtinValidators (Lakery.chars "dive") = true := by
  refine ⟨fun value fname => rfl, ?_, rfl⟩
  rw [TagValidator.validateTagPart.eq_def]
  rfl

/-- Claim C10, counterexample: a record can contain a slice field tagged
exactly `each` and still have `Validate` return an error result rather than
panic — an earlier field's failure (here `min=5` on `"a"`) aborts the walk
before the `each` field is reached. -/
theorem C10_counterexample :
    Lakery.Validate Lakery.NewValidator
      (.strct [(Lakery.chars "A", Lakery.chars "min=5", .str (Lakery.chars "a")),
               (Lakery.chars "B", Lakery.chars "each", .slice (some []))]) =
      .res (some (.formatted (Lakery.chars "A") (.str (Lakery.chars "a")) (.lenAtLeast 5))) := rfl

/-- Claim C10 (amended): if validation reaches a sequence-typed field whose
annotation is exactly `each` (every earlier field's tag processing succeeds),
`Validate` does not return a result: the each branch unconditionally calls
`Value.Param()`, which panics because the parameter is unset. -/
theorem C10_amended_each_panics (v : Lakery.Validator) (post : List Lakery.Field)
    (fname : List Char) (sval : Lakery.RValue) (elems : List Lakery.RValue)
    (hseq : Lakery.seqElems? sval = some elems) :
    ∀ pre : List Lakery.Field, (∀ f ∈ pre, Lakery.proceedTags v f = .res none) →
      Lakery.Validate v (.strct (pre ++ (fname, Lakery.chars "each", sval) :: post)) = .panicked := by
  intro pre
  induction pre with
  | nil =>
    intro _
    have h0 : Lakery.Validate v (.strct ((fname, Lakery.chars "each", sval) :: post)) =
        (match Lakery.proceedTags v (fname, Lakery.chars "each", sval) with
          | .res none => Lakery.validateStruct v post
          | r => r) := rfl
    simp only [List.nil_append]
    rw [h0, Lakery.proceedTags_each_noparam v fname sval elems hseq]
  | cons f fs ih =>
    intro hpre
    have hf : Lakery.proceedTags v f = .res none := hpre f (by simp)
    have h0 : Lakery.Validate v (.strct ((f :: fs) ++ (fname, Lakery.chars "each", sval) :: post)) =
        (match Lakery.proceedTags v f with
          | .res none => Lakery.validateStruct v (fs ++ (fname, Lakery.chars "each", sval) :: post)
          | r => r) := rfl
    rw [h0, hf]
    have := ih (fun g hg => hpre g (by simp [hg]))
    exact this

theorem C10_amended_witness :
    Lakery.seqElems? (.slice (some [])) = some [] ∧
    (∀ f ∈ ([(Lakery.chars "P", [], .int 0)] : List Lakery.Field),
        Lakery.proceedTags Lakery.NewValidator f = .res none) ∧
    Lakery.Validate Lakery.NewValidator
      (.strct [(Lakery.chars "P", [], .int 0),
               (Lakery.chars "B", Lakery.chars "each", .slice (some []))]) = .panicked := by
  refine ⟨rfl, ?_, ?_⟩
  · intro f hf
    rw [List.mem_singleton] at hf
    subst hf
    rfl
  · exact C10_amended_each_panics Lakery.NewValidator [] (Lakery.chars "B")
      (.slice (some [])) [] rfl [(Lakery.chars "P", [], .int 0)]
      (by
        intro f hf
        rw [List.mem_singleton] at hf
        subst hf
        rfl)
